import Mathlib

/-!
Verification of the Midi repository: the pitch transformers of
`midi_transform.py` (reverse, intervallic inversion, axis inversion and the
four-part composition of `main`) and the Rhythm Assignment Engine of
`create_melody.py` (`create_melody_with_random_durations`).

Pitches, velocities and times are Python ints, embedded as `Int`.
Tick durations are nonnegative Python ints, embedded as `Nat`.
The float arithmetic in `invert_notes` (`(min+max)/2`, `int(2*axis - note)`)
is embedded over `ℚ`; on MIDI-range integers these float operations are
exact, so the rational model is bit-for-bit faithful.
The engine's `random.randint` draws are passed in explicitly as a stream
`draws : Nat → Nat × Nat` (duration choice, modifier choice per iteration),
and the `while` loop is run on explicit fuel, returning `none` when the
fuel is exhausted before the loop exits.
-/

namespace Midi

/-- An event of `midi_transform.py`: the dicts built by
`extract_first_12_notes` with keys `note`, `velocity`, `time`. -/
structure NoteEv where
  note : Int
  velocity : Int
  time : Int
deriving DecidableEq, Repr

/-- Default element for `List.getD` indexing in theorem statements. -/
def dEv : NoteEv := ⟨0, 0, 0⟩

/-- `max(0, min(127, n))` — the clamping used at `midi_transform.py:64`
and `midi_transform.py:95`. -/
def clampPitch (n : Int) : Int := max 0 (min 127 n)

/-- `reverse_notes` (`midi_transform.py:35`): `list(reversed(notes))`. -/
def reverse_notes (notes : List NoteEv) : List NoteEv := notes.reverse

/-- The loop of `intervallic_inversion` (`midi_transform.py:53-70`):
`prevIn` is `notes[i-1]['note']`, `prevOut` is `inverted[i-1]['note']`.
Each step computes `interval = cur - prevIn`, negates it, adds it to
`prevOut` and clamps to the MIDI range. -/
def inv_aux (prevIn prevOut : Int) : List NoteEv → List NoteEv
  | [] => []
  | cur :: rest =>
    { note := clampPitch (prevOut + -(cur.note - prevIn)),
      velocity := cur.velocity, time := cur.time }
      :: inv_aux cur.note (clampPitch (prevOut + -(cur.note - prevIn))) rest

/-- `intervallic_inversion` (`midi_transform.py:42-72`): empty input gives
`[]`; otherwise the first note is kept unchanged and the loop runs with
both "previous" registers initialised to the first note. -/
def intervallic_inversion : List NoteEv → List NoteEv
  | [] => []
  | n0 :: rest => n0 :: inv_aux n0.note n0.note rest

/-- `min(n['note'] for n in notes)` on the nonempty list `n0 :: rest`
(`midi_transform.py:85`). -/
def minPitch (n0 : NoteEv) (rest : List NoteEv) : Int :=
  rest.foldl (fun m n => min m n.note) n0.note

/-- `max(n['note'] for n in notes)` on the nonempty list `n0 :: rest`
(`midi_transform.py:86`). -/
def maxPitch (n0 : NoteEv) (rest : List NoteEv) : Int :=
  rest.foldl (fun m n => max m n.note) n0.note

/-- Python `int()` on a rational value: truncation toward zero. -/
def truncQ (q : ℚ) : Int := if q < 0 then ⌈q⌉ else ⌊q⌋

/-- The axis `(min_note + max_note) / 2` computed at `midi_transform.py:87`
when no axis is supplied: an exact (unrounded) midpoint. -/
def axisDefault (n0 : NoteEv) (rest : List NoteEv) : ℚ :=
  ((minPitch n0 rest + maxPitch n0 rest : Int) : ℚ) / 2

/-- The axis actually used by `invert_notes`: the supplied one, or the
computed midpoint when `axis is None`. -/
def axisChoice (axis0 : Option ℚ) (n0 : NoteEv) (rest : List NoteEv) : ℚ :=
  match axis0 with
  | some a => a
  | none => axisDefault n0 rest

/-- `invert_notes` (`midi_transform.py:75-103`): each note becomes
`int(2 * axis - note)` clamped to `[0, 127]`; velocity and time are
passed through. -/
def invert_notes (notes : List NoteEv) (axis0 : Option ℚ) : List NoteEv :=
  match notes with
  | [] => []
  | n0 :: rest =>
    (n0 :: rest).map fun n =>
      { note := clampPitch (truncQ (2 * axisChoice axis0 n0 rest - (n.note : ℚ))),
        velocity := n.velocity, time := n.time }

/-- The pure core of `main` (`midi_transform.py:150-168`): the combined
sequence `step1 + step2 + step3 + step4` built from the extracted notes. -/
def mainCombined (step1_notes : List NoteEv) : List NoteEv :=
  step1_notes ++ reverse_notes step1_notes
    ++ intervallic_inversion step1_notes
    ++ reverse_notes (intervallic_inversion step1_notes)

/-- An input event of `create_melody.py`: the dicts built by
`extract_all_notes` with keys `note`, `velocity`. -/
structure NoteIn where
  note : Int
  velocity : Int
deriving DecidableEq, Repr

/-- An output event of `create_melody_with_random_durations`: a dict with
`type` `'note'` (pitch, velocity, duration) or `'rest'` (duration). -/
inductive MelodyEvent where
  | note (pitch velocity : Int) (duration : Nat)
  | rest (duration : Nat)
deriving DecidableEq, Repr

/-- The `duration` field of a melody event. -/
def durOf : MelodyEvent → Nat
  | .note _ _ d => d
  | .rest d => d

/-- The `duration_map` dict of `create_melody.py:54-61`. Its keys are
`1..6`; `random.randint(1, 6)` only ever looks up those keys, so the
final catch-all branch is unreachable in any faithful run. -/
def duration_map (ticks_per_beat choice : Nat) : Nat :=
  if choice = 1 then ticks_per_beat / 8
  else if choice = 2 then ticks_per_beat / 4
  else if choice = 3 then ticks_per_beat / 2
  else if choice = 4 then ticks_per_beat
  else if choice = 5 then ticks_per_beat * 2
  else ticks_per_beat * 4

/-- Lines 81-88 of `create_melody.py`: the current note is the held one
(hold slot cleared, index unchanged) or `notes[note_index]` (index
incremented). Returns the current note and the new index. -/
def pickNote (notes : List NoteIn) (i : Nat) (h : i < notes.length) :
    Option NoteIn → NoteIn × Nat
  | some cur => (cur, i)
  | none => (notes.get ⟨i, h⟩, i + 1)

/-- The `while note_index < len(notes)` loop of
`create_melody_with_random_durations` (`create_melody.py:79-134`), on
explicit fuel. State: current index, hold slot, current step number (the
position in the randomness stream). Modifier 1 emits the note with the
base duration, modifier 2 emits it with `int(base * 1.5)` (`base*3/2`:
exact for every duration derived from a ticks-per-beat below 2^50),
and any other modifier (always 3 under `randint(1, 3)`) emits a rest
with the base duration and places the current note in the hold slot.
The loop exits as soon as `note_index` reaches the input length,
whatever the hold slot contains; the result pairs the emitted events
with the hold slot's content at exit. -/
def create_melody_aux (tpb : Nat) (draws : Nat → Nat × Nat) (notes : List NoteIn) :
    Nat → Nat → Option NoteIn → Nat → Option (List MelodyEvent × Option NoteIn)
  | 0, i, held, _ =>
    if i < notes.length then none else some ([], held)
  | fuel + 1, i, held, step =>
    if h : i < notes.length then
      if (draws step).2 = 1 then
        (create_melody_aux tpb draws notes fuel (pickNote notes i h held).2 none (step + 1)).map
          (fun r => (MelodyEvent.note (pickNote notes i h held).1.note
              (pickNote notes i h held).1.velocity (duration_map tpb (draws step).1) :: r.1, r.2))
      else if (draws step).2 = 2 then
        (create_melody_aux tpb draws notes fuel (pickNote notes i h held).2 none (step + 1)).map
          (fun r => (MelodyEvent.note (pickNote notes i h held).1.note
              (pickNote notes i h held).1.velocity (duration_map tpb (draws step).1 * 3 / 2) :: r.1, r.2))
      else
        (create_melody_aux tpb draws notes fuel (pickNote notes i h held).2
            (some (pickNote notes i h held).1) (step + 1)).map
          (fun r => (MelodyEvent.rest (duration_map tpb (draws step).1) :: r.1, r.2))
    else some ([], held)

/-- `create_melody_with_random_durations` (`create_melody.py:36-139`),
started with index 0, empty hold slot and the first randomness draw. -/
def create_melody_with_random_durations (notes : List NoteIn) (tpb : Nat)
    (draws : Nat → Nat × Nat) (fuel : Nat) : Option (List MelodyEvent × Option NoteIn) :=
  create_melody_aux tpb draws notes fuel 0 none 0

/-- The twelve canonical tick durations at 480 ticks per beat:
six base values and their dotted (×1.5) forms. -/
def canonicalDurations : List Nat :=
  [60, 90, 120, 180, 240, 360, 480, 720, 960, 1440, 1920, 2880]

/-- The six undotted base tick durations at 480 ticks per beat. -/
def baseDurations : List Nat := [60, 120, 240, 480, 960, 1920]

/-- Randomness stream forcing duration 1/4 and modifier 3 (silence) on the
first step, then duration 1/4 and modifier 1 on every later step. -/
def drawsHold : Nat → Nat × Nat := fun n => if n = 0 then (4, 3) else (4, 1)

theorem clampPitch_nonneg (n : Int) : 0 ≤ clampPitch n := le_max_left 0 _

theorem clampPitch_le (n : Int) : clampPitch n ≤ 127 :=
  max_le (by norm_num) (min_le_left 127 n)

theorem duration_map_480_mem_base (dc : Nat) :
    duration_map 480 dc ∈ baseDurations := by
  unfold duration_map
  split_ifs <;> decide

theorem duration_map_480_mem_canonical (dc : Nat) :
    duration_map 480 dc ∈ canonicalDurations := by
  unfold duration_map
  split_ifs <;> decide

theorem duration_map_480_dotted_mem_canonical (dc : Nat) :
    duration_map 480 dc * 3 / 2 ∈ canonicalDurations := by
  unfold duration_map
  split_ifs <;> decide

/-- C1: the claim asserts the engine never terminates with a non-empty
hold slot. The code violates it: on the one-note input `[{note 60,
velocity 80}]` with the silence modifier drawn on the step that consumes
the final input event, the `while note_index < len(notes)` condition is
already false after that step, so the loop exits immediately — the engine
terminates having emitted only the rest, with note 60 still sitting in
the hold slot (it is silently dropped, never flushed by a further step). -/
theorem engine_drops_held_note_at_end :
    create_melody_with_random_durations [⟨60, 80⟩] 480 drawsHold 5
      = some ([MelodyEvent.rest 480], some ⟨60, 80⟩) := rfl

/-- C2: the claim asserts that on input `[{pitch 60, velocity 80}]` with
draws (duration 4, modifier 3) then (duration 4, modifier 1) the engine
emits `[RestEvent 480, NoteEvent 60 80 480]` and performs a second step.
The code instead stops after the first step: it emits only
`[RestEvent 480]` and exits with note 60 still held. -/
theorem engine_concrete_scenario_diverges :
    create_melody_with_random_durations [⟨60, 80⟩] 480 drawsHold 5
        = some ([MelodyEvent.rest 480], some ⟨60, 80⟩) ∧
      create_melody_with_random_durations [⟨60, 80⟩] 480 drawsHold 5
        ≠ some ([MelodyEvent.rest 480, MelodyEvent.note 60 80 480], none) := by
  constructor
  · rfl
  · decide

/-- C8: on the empty input sequence each pitch transformer returns the
empty sequence — for any optional axis — and the rhythm engine's loop
never runs (whatever the draws, the fuel or the ticks-per-beat), emitting
no events and ending with an empty hold slot; nothing fails. -/
theorem empty_input_empty_output (axis0 : Option ℚ) (tpb fuel : Nat)
    (draws : Nat → Nat × Nat) :
    reverse_notes [] = [] ∧
      intervallic_inversion [] = [] ∧
      invert_notes [] axis0 = [] ∧
      create_melody_with_random_durations [] tpb draws fuel = some ([], none) := by
  refine ⟨rfl, rfl, rfl, ?_⟩
  cases fuel <;> simp [create_melody_with_random_durations, create_melody_aux]

/-- Every event a terminating run of the engine loop emits at 480 ticks
per beat has a canonical duration, and every rest among them has an
undotted base duration: modifier 1 and the rest branch emit the base
duration looked up in `duration_map`, modifier 2 emits its dotted form. -/
theorem create_melody_aux_events_shape (draws : Nat → Nat × Nat)
    (notes : List NoteIn) :
    ∀ (fuel i step : Nat) (held heldEnd : Option NoteIn) (es : List MelodyEvent),
      create_melody_aux 480 draws notes fuel i held step = some (es, heldEnd) →
      ∀ e ∈ es, durOf e ∈ canonicalDurations ∧
        ∀ d, e = MelodyEvent.rest d → d ∈ baseDurations := by
  intro fuel
  induction fuel with
  | zero =>
    intro i step held heldEnd es heq
    simp only [create_melody_aux] at heq
    split at heq
    · exact absurd heq (by simp)
    · obtain ⟨rfl, rfl⟩ := Prod.mk.inj (Option.some_inj.mp heq)
      intro e he
      simp at he
  | succ fuel ih =>
    intro i step held heldEnd es heq
    simp only [create_melody_aux] at heq
    split at heq
    · split_ifs at heq with hm1 hm2
      · rw [Option.map_eq_some'] at heq
        obtain ⟨⟨es', held'⟩, hrec, hcons⟩ := heq
        obtain ⟨rfl, rfl⟩ := Prod.mk.inj (Option.some_inj.mp (congrArg some hcons))
        intro e he
        rcases List.mem_cons.mp he with rfl | he'
        · exact ⟨duration_map_480_mem_canonical _, fun d hd => by cases hd⟩
        · exact ih _ _ _ _ _ hrec e he'
      · rw [Option.map_eq_some'] at heq
        obtain ⟨⟨es', held'⟩, hrec, hcons⟩ := heq
        obtain ⟨rfl, rfl⟩ := Prod.mk.inj (Option.some_inj.mp (congrArg some hcons))
        intro e he
        rcases List.mem_cons.mp he with rfl | he'
        · exact ⟨duration_map_480_dotted_mem_canonical _, fun d hd => by cases hd⟩
        · exact ih _ _ _ _ _ hrec e he'
      · rw [Option.map_eq_some'] at heq
        obtain ⟨⟨es', held'⟩, hrec, hcons⟩ := heq
        obtain ⟨rfl, rfl⟩ := Prod.mk.inj (Option.some_inj.mp (congrArg some hcons))
        intro e he
        rcases List.mem_cons.mp he with rfl | he'
        · refine ⟨duration_map_480_mem_canonical _, fun d hd => ?_⟩
          cases hd
          exact duration_map_480_mem_base _
        · exact ih _ _ _ _ _ hrec e he'
    · obtain ⟨rfl, rfl⟩ := Prod.mk.inj (Option.some_inj.mp heq)
      intro e he
      simp at he

/-- C5: with the default 480 ticks per beat, every melody event emitted by
a terminating run of the Rhythm Assignment Engine — for any input notes,
any randomness stream and any fuel — has a duration among the twelve
canonical values (the six base durations and their dotted forms). -/
theorem engine_durations_canonical (notes : List NoteIn)
    (draws : Nat → Nat × Nat) (fuel : Nat) (es : List MelodyEvent)
    (heldEnd : Option NoteIn)
    (heq : create_melody_with_random_durations notes 480 draws fuel
      = some (es, heldEnd)) :
    ∀ e ∈ es, durOf e ∈ canonicalDurations := by
  intro e he
  exact (create_melody_aux_events_shape draws notes fuel 0 0 none heldEnd es heq e he).1

/-- Witness for C5 at the one-note input with draws (4, 1) forever. -/
theorem engine_durations_canonical_witness :
    durOf (MelodyEvent.note 60 80 480) ∈ canonicalDurations :=
  engine_durations_canonical [⟨60, 80⟩] (fun _ => (4, 1)) 2
    [MelodyEvent.note 60 80 480] none rfl (MelodyEvent.note 60 80 480) (by simp)

/-- C9: every rest emitted by a terminating run of the Rhythm Assignment
Engine at 480 ticks per beat has an undotted base duration — the dotted
1.5× modifier is only ever applied in the note-emitting branch, never to
a rest. -/
theorem engine_rests_undotted (notes : List NoteIn)
    (draws : Nat → Nat × Nat) (fuel : Nat) (es : List MelodyEvent)
    (heldEnd : Option NoteIn)
    (heq : create_melody_with_random_durations notes 480 draws fuel
      = some (es, heldEnd)) :
    ∀ d, MelodyEvent.rest d ∈ es → d ∈ baseDurations := by
  intro d hd
  exact (create_melody_aux_events_shape draws notes fuel 0 0 none heldEnd es heq
    (MelodyEvent.rest d) hd).2 d rfl

/-- Witness for C9 at the one-note input with a silence draw first. -/
theorem engine_rests_undotted_witness : (480 : Nat) ∈ baseDurations :=
  engine_rests_undotted [⟨60, 80⟩] drawsHold 5 [MelodyEvent.rest 480]
    (some ⟨60, 80⟩) rfl 480 (by simp)

theorem inv_aux_length (L : List NoteEv) : ∀ pIn pOut : Int,
    (inv_aux pIn pOut L).length = L.length := by
  induction L with
  | nil => intro pIn pOut; rfl
  | cons cur rest ih => intro pIn pOut; simp [inv_aux, ih]

theorem intervallic_inversion_length (S : List NoteEv) :
    (intervallic_inversion S).length = S.length := by
  cases S with
  | nil => rfl
  | cons n0 rest => simp [intervallic_inversion, inv_aux_length]

/-- Pointwise description of the `intervallic_inversion` loop: the note at
index `i` is the previous output note (the register `pOut` at index 0)
minus the input interval at `i`, clamped; velocity and time pass through. -/
theorem inv_aux_getD (L : List NoteEv) : ∀ (pIn pOut : Int) (i : Nat),
    i < L.length →
    ((inv_aux pIn pOut L).getD i dEv).note
        = clampPitch ((if i = 0 then pOut else ((inv_aux pIn pOut L).getD (i - 1) dEv).note)
          - ((L.getD i dEv).note - if i = 0 then pIn else (L.getD (i - 1) dEv).note))
      ∧ ((inv_aux pIn pOut L).getD i dEv).velocity = (L.getD i dEv).velocity
      ∧ ((inv_aux pIn pOut L).getD i dEv).time = (L.getD i dEv).time := by
  induction L with
  | nil => intro pIn pOut i hi; simp at hi
  | cons cur rest ih =>
    intro pIn pOut i hi
    match i with
    | 0 =>
      refine ⟨?_, rfl, rfl⟩
      simp [inv_aux, sub_eq_add_neg]
    | Nat.succ j =>
      have hj : j < rest.length := by simpa using hi
      have H := ih cur.note (clampPitch (pOut + -(cur.note - pIn))) j hj
      match j with
      | 0 => simpa [inv_aux, sub_eq_add_neg] using H
      | Nat.succ k => simpa [inv_aux] using H

/-- C3: on a non-empty input the intervallic inversion has the same
length, keeps the first event unchanged, and at every later index `i` its
note is the previous OUTPUT note minus the input interval
`S[i].note - S[i-1].note`, clamped to `[0, 127]`, while velocity and time
pass through from the input event at `i`. -/
theorem intervallic_inversion_recurrence (S : List NoteEv) (hS : S ≠ []) :
    (intervallic_inversion S).length = S.length ∧
      (intervallic_inversion S).getD 0 dEv = S.getD 0 dEv ∧
      ∀ i, 1 ≤ i → i < S.length →
        ((intervallic_inversion S).getD i dEv).note
            = clampPitch (((intervallic_inversion S).getD (i - 1) dEv).note
              - ((S.getD i dEv).note - (S.getD (i - 1) dEv).note))
          ∧ ((intervallic_inversion S).getD i dEv).velocity
              = (S.getD i dEv).velocity
          ∧ ((intervallic_inversion S).getD i dEv).time = (S.getD i dEv).time := by
  match S with
  | [] => exact absurd rfl hS
  | n0 :: rest =>
    refine ⟨intervallic_inversion_length _, rfl, ?_⟩
    intro i h1 hi
    match i, h1 with
    | Nat.succ j, _ =>
      have hj : j < rest.length := by simpa using hi
      have H := inv_aux_getD rest n0.note n0.note j hj
      match j with
      | 0 => simpa [intervallic_inversion] using H
      | Nat.succ k => simpa [intervallic_inversion] using H

/-- Witness for C3 at the two-note input (60, 80, 0), (64, 81, 1). -/
theorem intervallic_inversion_recurrence_witness :
    (intervallic_inversion [⟨60, 80, 0⟩, ⟨64, 81, 1⟩]).length
        = ([⟨60, 80, 0⟩, ⟨64, 81, 1⟩] : List NoteEv).length ∧
      (intervallic_inversion [⟨60, 80, 0⟩, ⟨64, 81, 1⟩]).getD 0 dEv
        = ([⟨60, 80, 0⟩, ⟨64, 81, 1⟩] : List NoteEv).getD 0 dEv ∧
      ∀ i, 1 ≤ i → i < ([⟨60, 80, 0⟩, ⟨64, 81, 1⟩] : List NoteEv).length →
        ((intervallic_inversion [⟨60, 80, 0⟩, ⟨64, 81, 1⟩]).getD i dEv).note
            = clampPitch
              (((intervallic_inversion [⟨60, 80, 0⟩, ⟨64, 81, 1⟩]).getD (i - 1) dEv).note
                - ((([⟨60, 80, 0⟩, ⟨64, 81, 1⟩] : List NoteEv).getD i dEv).note
                  - (([⟨60, 80, 0⟩, ⟨64, 81, 1⟩] : List NoteEv).getD (i - 1) dEv).note))
          ∧ ((intervallic_inversion [⟨60, 80, 0⟩, ⟨64, 81, 1⟩]).getD i dEv).velocity
              = (([⟨60, 80, 0⟩, ⟨64, 81, 1⟩] : List NoteEv).getD i dEv).velocity
          ∧ ((intervallic_inversion [⟨60, 80, 0⟩, ⟨64, 81, 1⟩]).getD i dEv).time
              = (([⟨60, 80, 0⟩, ⟨64, 81, 1⟩] : List NoteEv).getD i dEv).time :=
  intervallic_inversion_recurrence [⟨60, 80, 0⟩, ⟨64, 81, 1⟩] (by decide)

/-- When every reflected value `pOut + pIn - note` stays inside the MIDI
range, the clamp in the `intervallic_inversion` loop is the identity and
the running recurrence collapses to `pOut + pIn - note` at every index. -/
theorem inv_aux_no_clamp (L : List NoteEv) : ∀ pIn pOut : Int,
    (∀ t, t < L.length →
      0 ≤ pOut + pIn - (L.getD t dEv).note ∧
        pOut + pIn - (L.getD t dEv).note ≤ 127) →
    ∀ i, i < L.length →
      ((inv_aux pIn pOut L).getD i dEv).note
        = pOut + pIn - (L.getD i dEv).note := by
  induction L with
  | nil => intro pIn pOut H i hi; simp at hi
  | cons cur rest ih =>
    intro pIn pOut H i hi
    have h0 := H 0 (by simp)
    simp only [List.getD_cons_zero] at h0
    have hnew : clampPitch (pOut + -(cur.note - pIn)) = pOut + pIn - cur.note := by
      unfold clampPitch
      omega
    match i with
    | 0 => simpa [inv_aux] using hnew
    | Nat.succ j =>
      have hj : j < rest.length := by simpa using hi
      have H2 : ∀ t, t < rest.length →
          0 ≤ (pOut + pIn - cur.note) + cur.note - (rest.getD t dEv).note ∧
            (pOut + pIn - cur.note) + cur.note - (rest.getD t dEv).note ≤ 127 := by
        intro t ht
        have := H (t + 1) (by simpa using ht)
        simp only [List.getD_cons_succ] at this
        omega
      have hrec := ih cur.note (pOut + pIn - cur.note) H2 j hj
      simp only [inv_aux, List.getD_cons_succ, hnew]
      rw [hrec]
      omega

/-- C10: when no intermediate value of the recurrence leaves `[0, 127]`
(every reflected value `2*S[0].note - S[i].note` is in range), the
intervallic inversion is exactly the reflection of each pitch about the
first pitch. -/
theorem intervallic_inversion_no_clamp_reflection (S : List NoteEv) (hS : S ≠ [])
    (H : ∀ t, t < S.length →
      0 ≤ 2 * (S.getD 0 dEv).note - (S.getD t dEv).note ∧
        2 * (S.getD 0 dEv).note - (S.getD t dEv).note ≤ 127) :
    ∀ i, i < S.length →
      ((intervallic_inversion S).getD i dEv).note
        = 2 * (S.getD 0 dEv).note - (S.getD i dEv).note := by
  match S with
  | [] => exact absurd rfl hS
  | n0 :: rest =>
    intro i hi
    match i with
    | 0 =>
      simp only [intervallic_inversion, List.getD_cons_zero]
      omega
    | Nat.succ j =>
      have hj : j < rest.length := by simpa using hi
      have H2 : ∀ t, t < rest.length →
          0 ≤ n0.note + n0.note - (rest.getD t dEv).note ∧
            n0.note + n0.note - (rest.getD t dEv).note ≤ 127 := by
        intro t ht
        have := H (t + 1) (by simpa using ht)
        simp only [List.getD_cons_succ, List.getD_cons_zero] at this
        omega
      have hrec := inv_aux_no_clamp rest n0.note n0.note H2 j hj
      simp only [intervallic_inversion, List.getD_cons_succ, List.getD_cons_zero]
      rw [hrec]
      omega

/-- Witness for C10 at the three-note input with pitches 60, 64, 57:
no clamping occurs and the output pitches are 60, 56, 63. -/
theorem intervallic_inversion_no_clamp_reflection_witness :
    ((intervallic_inversion [⟨60, 80, 0⟩, ⟨64, 81, 0⟩, ⟨57, 82, 0⟩]).getD 1 dEv).note
      = 2 * (([⟨60, 80, 0⟩, ⟨64, 81, 0⟩, ⟨57, 82, 0⟩] : List NoteEv).getD 0 dEv).note
        - (([⟨60, 80, 0⟩, ⟨64, 81, 0⟩, ⟨57, 82, 0⟩] : List NoteEv).getD 1 dEv).note :=
  intervallic_inversion_no_clamp_reflection [⟨60, 80, 0⟩, ⟨64, 81, 0⟩, ⟨57, 82, 0⟩]
    (by decide) (by decide) 1 (by decide)

theorem inv_aux_mem_note (L : List NoteEv) : ∀ (pIn pOut : Int) (e : NoteEv),
    e ∈ inv_aux pIn pOut L → ∃ m, e.note = clampPitch m := by
  induction L with
  | nil => intro _ _ e he; simp [inv_aux] at he
  | cons cur rest ih =>
    intro pIn pOut e he
    rcases List.mem_cons.mp he with rfl | he'
    · exact ⟨_, rfl⟩
    · exact ih _ _ e he'

/-- C6: if every input pitch lies in `[0, 127]`, then so does every pitch
in the output of each of the three transformers: `reverse_notes` permutes
the input, `intervallic_inversion` keeps the first event and clamps all
others, `invert_notes` (with the computed axis) clamps every event. -/
theorem transformers_pitch_range (S : List NoteEv)
    (h : ∀ e ∈ S, 0 ≤ e.note ∧ e.note ≤ 127) :
    (∀ e ∈ reverse_notes S, 0 ≤ e.note ∧ e.note ≤ 127) ∧
      (∀ e ∈ intervallic_inversion S, 0 ≤ e.note ∧ e.note ≤ 127) ∧
      (∀ e ∈ invert_notes S none, 0 ≤ e.note ∧ e.note ≤ 127) := by
  refine ⟨?_, ?_, ?_⟩
  · intro e he
    exact h e (by simpa [reverse_notes] using he)
  · intro e he
    cases S with
    | nil => simp [intervallic_inversion] at he
    | cons n0 rest =>
      rcases List.mem_cons.mp he with rfl | he'
      · exact h _ (List.mem_cons_self _ _)
      · obtain ⟨m, hm⟩ := inv_aux_mem_note rest n0.note n0.note e he'
        rw [hm]
        exact ⟨clampPitch_nonneg m, clampPitch_le m⟩
  · intro e he
    cases S with
    | nil => simp [invert_notes] at he
    | cons n0 rest =>
      simp only [invert_notes] at he
      obtain ⟨n, hn, rfl⟩ := List.mem_map.mp he
      exact ⟨clampPitch_nonneg _, clampPitch_le _⟩

/-- Witness for C6 at the one-note input with pitch 60. -/
theorem transformers_pitch_range_witness :
    (∀ e ∈ reverse_notes [(⟨60, 80, 0⟩ : NoteEv)], 0 ≤ e.note ∧ e.note ≤ 127) ∧
      (∀ e ∈ intervallic_inversion [(⟨60, 80, 0⟩ : NoteEv)],
        0 ≤ e.note ∧ e.note ≤ 127) ∧
      (∀ e ∈ invert_notes [(⟨60, 80, 0⟩ : NoteEv)] none,
        0 ≤ e.note ∧ e.note ≤ 127) :=
  transformers_pitch_range [⟨60, 80, 0⟩] (by decide)

/-- C7: the combined sequence built by `main` is the literal concatenation
original ++ reverse ++ intervallic inversion ++ reverse of the inversion,
and its length is exactly four times the input length. -/
theorem main_combined_structure (S : List NoteEv) :
    mainCombined S
        = S ++ reverse_notes S ++ intervallic_inversion S
          ++ reverse_notes (intervallic_inversion S) ∧
      (mainCombined S).length = 4 * S.length := by
  refine ⟨rfl, ?_⟩
  simp only [mainCombined, reverse_notes, List.length_append, List.length_reverse,
    intervallic_inversion_length]
  omega

/-- C4: on a non-empty input with no axis supplied, `invert_notes` uses
the exact (unrounded) rational midpoint `(min + max) / 2` of the input
pitches as axis, and maps each pitch to `2*axis - pitch` truncated toward
zero and clamped to `[0, 127]`, passing velocity and time through. -/
theorem invert_notes_default_axis (n0 : NoteEv) (rest : List NoteEv) :
    axisChoice none n0 rest
        = ((minPitch n0 rest + maxPitch n0 rest : Int) : ℚ) / 2 ∧
      (invert_notes (n0 :: rest) none).length = (n0 :: rest : List NoteEv).length ∧
      ∀ i, i < (n0 :: rest : List NoteEv).length →
        ((invert_notes (n0 :: rest) none).getD i dEv).note
            = clampPitch (truncQ (2 * axisChoice none n0 rest
              - ((((n0 :: rest : List NoteEv)).getD i dEv).note : ℚ)))
          ∧ ((invert_notes (n0 :: rest) none).getD i dEv).velocity
              = (((n0 :: rest : List NoteEv)).getD i dEv).velocity
          ∧ ((invert_notes (n0 :: rest) none).getD i dEv).time
              = (((n0 :: rest : List NoteEv)).getD i dEv).time := by
  refine ⟨rfl, by simp [invert_notes], ?_⟩
  intro i hi
  have h1 : (invert_notes (n0 :: rest) none).getD i dEv
      = { note := clampPitch (truncQ (2 * axisChoice none n0 rest
            - ((((n0 :: rest : List NoteEv)).getD i dEv).note : ℚ))),
          velocity := (((n0 :: rest : List NoteEv)).getD i dEv).velocity,
          time := (((n0 :: rest : List NoteEv)).getD i dEv).time } := by
    simp only [invert_notes]
    rw [List.getD_eq_getElem _ _ (by simpa using hi), List.getElem_map,
      List.getD_eq_getElem _ _ hi]
  rw [h1]
  exact ⟨rfl, rfl, rfl⟩

/-- Witness for C4 at the two-note input with pitches 60 and 64
(axis 62, outputs 64 and 60). -/
theorem invert_notes_default_axis_witness :
    axisChoice none ⟨60, 80, 0⟩ [⟨64, 90, 0⟩]
        = ((minPitch ⟨60, 80, 0⟩ [⟨64, 90, 0⟩]
            + maxPitch ⟨60, 80, 0⟩ [⟨64, 90, 0⟩] : Int) : ℚ) / 2 ∧
      (invert_notes [⟨60, 80, 0⟩, ⟨64, 90, 0⟩] none).length
        = ([⟨60, 80, 0⟩, ⟨64, 90, 0⟩] : List NoteEv).length ∧
      ∀ i, i < ([⟨60, 80, 0⟩, ⟨64, 90, 0⟩] : List NoteEv).length →
        ((invert_notes [⟨60, 80, 0⟩, ⟨64, 90, 0⟩] none).getD i dEv).note
            = clampPitch (truncQ (2 * axisChoice none ⟨60, 80, 0⟩ [⟨64, 90, 0⟩]
              - ((([⟨60, 80, 0⟩, ⟨64, 90, 0⟩] : List NoteEv).getD i dEv).note : ℚ)))
          ∧ ((invert_notes [⟨60, 80, 0⟩, ⟨64, 90, 0⟩] none).getD i dEv).velocity
              = (([⟨60, 80, 0⟩, ⟨64, 90, 0⟩] : List NoteEv).getD i dEv).velocity
          ∧ ((invert_notes [⟨60, 80, 0⟩, ⟨64, 90, 0⟩] none).getD i dEv).time
              = (([⟨60, 80, 0⟩, ⟨64, 90, 0⟩] : List NoteEv).getD i dEv).time :=
  invert_notes_default_axis ⟨60, 80, 0⟩ [⟨64, 90, 0⟩]

end Midi
